import Mathlib

/-!
Verification of the deepest-common-ancestor-directory algorithm of
`darker/utils.py`: the functions `get_path_ancestry` and `get_common_root`.

Paths are modelled in canonical absolute form: an anchor (the filesystem
root, `"/"` on POSIX or a drive root such as `"C:\"` on Windows) together
with the list of path segments below it.  `Path.resolve()` is the identity
on canonical absolute paths, so the `resolved_paths` step of
`get_common_root` needs no separate model.  The filesystem is abstracted as
a predicate `isDir : FsPath → Bool` (the `path.is_dir()` call); a path that
does not exist on the filesystem is sent to `false` by this predicate,
exactly as `pathlib.Path.is_dir` returns `False` for missing paths.
-/

/-- A canonical absolute filesystem path: the root anchor plus the ordered
list of path segments below the root. -/
structure FsPath where
  anchor : String
  segments : List String
deriving DecidableEq, Inhabited

/-- The parent directory of a path, as in `pathlib`: drop the last segment.
(The parent of a root is the root itself, since `dropLast [] = []`.) -/
def FsPath.parent (p : FsPath) : FsPath :=
  ⟨p.anchor, p.segments.dropLast⟩

/-- The value `reversed(path.parents)` used by `get_path_ancestry`: every
proper ancestor of `p`, ordered from the filesystem root down to the direct
parent.  Element `i` keeps the first `i` segments of `p`.  For the root
itself the list is empty, matching `pathlib` where a root has no parents. -/
def reverseParents (p : FsPath) : List FsPath :=
  (List.range p.segments.length).map fun i => ⟨p.anchor, p.segments.take i⟩

/-- Embedding of `get_path_ancestry` (utils.py lines 54-65): the ancestors
of `path` from the filesystem root down, including `path` itself exactly
when `path.is_dir()` holds. -/
def get_path_ancestry (isDir : FsPath → Bool) (path : FsPath) : List FsPath :=
  if isDir path then reverseParents path ++ [path] else reverseParents path

/-- The number of lockstep columns produced by Python's `zip(*chains)`:
the length of the shortest chain, and `0` when there are no chains. -/
def minLen : List (List FsPath) → Nat
  | [] => 0
  | c :: cs => cs.foldl (fun m d => min m d.length) c.length

/-- Embedding of `zip(*(get_path_ancestry(path) for path in resolved_paths))`
in `get_common_root`: the list of lockstep columns, truncated at the
shortest chain; column `i` collects element `i` of every chain. -/
def zipAll (chains : List (List FsPath)) : List (List FsPath) :=
  (List.range (minLen chains)).map fun i => chains.map fun c => c.getD i default

/-- Embedding of the loop `for first_path, *other_paths in parents:` of
`get_common_root`: scan the columns in the given order and return the first
column whose entries all agree, if any. -/
def scanCols : List (List FsPath) → Option FsPath
  | [] => none
  | [] :: _ => none
  | (first :: others) :: rest =>
    if others.all (· == first) then some first else scanCols rest

/-- Embedding of `get_common_root` (utils.py lines 68-75): zip the ancestor
chains of all the paths, walk the columns from the deepest end upward, and
return the first fully-agreeing column's element; raise `ValueError` when
no column agrees. -/
def get_common_root (isDir : FsPath → Bool) (paths : List FsPath) :
    Except String FsPath :=
  match scanCols ((zipAll (paths.map (get_path_ancestry isDir))).reverse) with
  | some first => .ok first
  | none => .error "Paths have no common parent Git root"

/-- Directories of the sample filesystem used in the concrete scenarios:
`/`, `/a`, `/a/b`, `/a/b/c` and `/a/b/d` exist as directories. -/
def demoDirs : List FsPath :=
  [⟨"/", []⟩, ⟨"/", ["a"]⟩, ⟨"/", ["a", "b"]⟩,
   ⟨"/", ["a", "b", "c"]⟩, ⟨"/", ["a", "b", "d"]⟩]

/-- Sample filesystem: a path is a directory iff it is one of `demoDirs`. -/
def demoFs (p : FsPath) : Bool := demoDirs.contains p

/-- Sample filesystem in which `/a/b/c` is a file: only `/`, `/a` and
`/a/b` are directories. -/
def shallowDirs : List FsPath := [⟨"/", []⟩, ⟨"/", ["a"]⟩, ⟨"/", ["a", "b"]⟩]

/-- Filesystem with directories `shallowDirs` only. -/
def shallowFs (p : FsPath) : Bool := shallowDirs.contains p

/-- Filesystem in which only the root `/` exists (and is a directory). -/
def rootOnlyFs (p : FsPath) : Bool := p == (⟨"/", []⟩ : FsPath)

/-- All entries of a lockstep column are equal to one another. -/
def AllEq (col : List FsPath) : Prop := ∀ x ∈ col, ∀ y ∈ col, x = y

/-- Some single value occupies position `i` of every chain: the directory
position `i` is shared by all chains. -/
def sharedAt (chains : List (List FsPath)) (i : Nat) : Prop :=
  ∃ q, ∀ c ∈ chains, c.getD i default = q

/-- The path `q` is an ancestor of `p` (or `p` itself): same root anchor,
and the segments of `q` are an initial run of the segments of `p`. -/
def ancestorOf (q p : FsPath) : Prop :=
  q.anchor = p.anchor ∧ ∃ t, q.segments ++ t = p.segments

/-- C1: for the inputs `/a/b/c/file.txt` and `/a/b/d/file2.txt`, files under
the common directory `/a/b`, `get_common_root` returns `/a/b`: the deepest
directory on which both ancestor chains agree at the same lockstep
position, scanning from the leaf end toward the root. -/
theorem c1_two_files_common_root :
    get_common_root demoFs
        [⟨"/", ["a", "b", "c", "file.txt"]⟩, ⟨"/", ["a", "b", "d", "file2.txt"]⟩] =
      .ok ⟨"/", ["a", "b"]⟩ := by
  rfl

/-- C10: applied to the empty collection of paths, `get_common_root` does
not return any path: the zip produces no lockstep columns at all, the scan
finds nothing, and the no-common-root `ValueError` is raised. -/
theorem c10_empty_collection_errors (isDir : FsPath → Bool) :
    get_common_root isDir [] = .error "Paths have no common parent Git root" :=
  rfl

/-! ### Structure of a single ancestor chain -/

theorem reverseParents_length (p : FsPath) :
    (reverseParents p).length = p.segments.length := by
  simp [reverseParents]

theorem ancestry_length (fs : FsPath → Bool) (p : FsPath) :
    (get_path_ancestry fs p).length =
      if fs p then p.segments.length + 1 else p.segments.length := by
  unfold get_path_ancestry
  split <;> simp [reverseParents]

theorem reverseParents_getD (p : FsPath) (i : Nat) (h : i < p.segments.length) :
    (reverseParents p).getD i default = ⟨p.anchor, p.segments.take i⟩ := by
  unfold reverseParents
  rw [List.getD_eq_getElem _ _ (by simpa using h)]
  simp

theorem ancestry_getD (fs : FsPath → Bool) (p : FsPath) (i : Nat)
    (h : i < (get_path_ancestry fs p).length) :
    (get_path_ancestry fs p).getD i default = ⟨p.anchor, p.segments.take i⟩ := by
  rw [ancestry_length] at h
  unfold get_path_ancestry
  by_cases hd : fs p
  · rw [if_pos hd] at h ⊢
    rcases Nat.lt_or_ge i p.segments.length with hi | hi
    · rw [List.getD_eq_getElem _ _ (by simp [reverseParents]; omega),
        List.getElem_append_left (by simpa [reverseParents] using hi)]
      have := reverseParents_getD p i hi
      rw [List.getD_eq_getElem _ _ (by simpa [reverseParents] using hi)] at this
      exact this
    · have hei : i = p.segments.length := by omega
      subst hei
      rw [List.getD_eq_getElem _ _ (by simp [reverseParents])]
      rw [List.getElem_append_right (by simp [reverseParents])]
      simp [reverseParents, List.take_length]
  · rw [if_neg hd] at h ⊢
    exact reverseParents_getD p i h

theorem ancestry_length_pos (fs : FsPath → Bool) (p : FsPath)
    (hroot : fs ⟨p.anchor, []⟩ = true) : 0 < (get_path_ancestry fs p).length := by
  rw [ancestry_length]
  rcases hseg : p.segments with _ | ⟨s, t⟩
  · have hp : p = ⟨p.anchor, []⟩ := by cases p; simp_all
    rw [hp] at hroot ⊢
    simp [hroot]
  · split <;> simp

theorem ancestry_getD_zero (fs : FsPath → Bool) (p : FsPath)
    (hroot : fs ⟨p.anchor, []⟩ = true) :
    (get_path_ancestry fs p).getD 0 default = ⟨p.anchor, []⟩ := by
  rw [ancestry_getD fs p 0 (ancestry_length_pos fs p hroot)]
  simp

/-! ### The minimum chain length (number of zip columns) -/

theorem foldl_min_le_init (cs : List (List FsPath)) (a : Nat) :
    cs.foldl (fun m d => min m d.length) a ≤ a := by
  induction cs generalizing a with
  | nil => simp
  | cons c t ih => exact le_trans (ih _) (min_le_left _ _)

theorem foldl_min_le_mem (cs : List (List FsPath)) (a : Nat) (d : List FsPath) :
    d ∈ cs → cs.foldl (fun m e => min m e.length) a ≤ d.length := by
  induction cs generalizing a with
  | nil => intro hd; cases hd
  | cons c t ih =>
    intro hd
    rcases List.mem_cons.mp hd with hd | hd
    · subst hd
      exact le_trans (foldl_min_le_init t _) (min_le_right _ _)
    · exact ih _ hd

theorem foldl_min_attained (cs : List (List FsPath)) (a : Nat) :
    cs.foldl (fun m e => min m e.length) a = a ∨
      ∃ d ∈ cs, cs.foldl (fun m e => min m e.length) a = d.length := by
  induction cs generalizing a with
  | nil => exact Or.inl rfl
  | cons c t ih =>
    rcases ih (min a c.length) with h | ⟨d, hd, h⟩
    · rcases Nat.le_total a c.length with hle | hle
      · exact Or.inl (by simpa [Nat.min_eq_left hle] using h)
      · exact Or.inr ⟨c, List.mem_cons_self c t,
          by simpa [Nat.min_eq_right hle] using h⟩
    · exact Or.inr ⟨d, List.mem_cons_of_mem c hd, h⟩

theorem minLen_le_of_mem (chains : List (List FsPath)) (c : List FsPath)
    (hc : c ∈ chains) : minLen chains ≤ c.length := by
  cases chains with
  | nil => cases hc
  | cons c0 t =>
    rcases List.mem_cons.mp hc with hc' | hc'
    · subst hc'
      exact foldl_min_le_init t _
    · exact foldl_min_le_mem t _ _ hc'

theorem minLen_attained (chains : List (List FsPath)) (hne : chains ≠ []) :
    ∃ c ∈ chains, minLen chains = c.length := by
  cases chains with
  | nil => exact absurd rfl hne
  | cons c0 t =>
    rcases foldl_min_attained t c0.length with h | ⟨d, hd, h⟩
    · exact ⟨c0, List.mem_cons_self c0 t, h⟩
    · exact ⟨d, List.mem_cons_of_mem c0 hd, h⟩

theorem minLen_perm (chains chains' : List (List FsPath))
    (h : chains.Perm chains') : minLen chains = minLen chains' := by
  rcases eq_or_ne chains [] with hnil | hne
  · subst hnil
    rw [h.nil_eq.symm]
  · have hne' : chains' ≠ [] := by
      intro h0
      subst h0
      exact hne h.eq_nil
    apply Nat.le_antisymm
    · obtain ⟨c', hc', he⟩ := minLen_attained chains' hne'
      exact he ▸ minLen_le_of_mem chains c' (h.mem_iff.mpr hc')
    · obtain ⟨c, hc, he⟩ := minLen_attained chains hne
      exact he ▸ minLen_le_of_mem chains' c (h.mem_iff.mp hc)

/-! ### The column scan -/

theorem allEq_of_all (f : FsPath) (os : List FsPath)
    (hall : os.all (· == f) = true) : AllEq (f :: os) := by
  have hf : ∀ x ∈ f :: os, x = f := by
    intro x hx
    rcases List.mem_cons.mp hx with hx' | hx'
    · exact hx'
    · exact beq_iff_eq.mp (List.all_eq_true.mp hall x hx')
  intro x hx y hy
  rw [hf x hx, hf y hy]

theorem not_allEq_of_not_all (f : FsPath) (os : List FsPath)
    (hall : os.all (· == f) = false) : ¬ AllEq (f :: os) := by
  intro hAE
  rcases List.exists_mem_of_ne_nil os (by rintro rfl; simp at hall) with _
  have : ∀ x ∈ os, (x == f) = true := by
    intro x hx
    exact beq_iff_eq.mpr
      (hAE x (List.mem_cons_of_mem f hx) f (List.mem_cons_self f os))
  rw [List.all_eq_true.mpr this] at hall
  cases hall

theorem scanCols_none_iff (cols : List (List FsPath)) :
    (∀ c ∈ cols, c ≠ []) →
      (scanCols cols = none ↔ ∀ col ∈ cols, ¬ AllEq col) := by
  induction cols with
  | nil => intro _; simp [scanCols]
  | cons col rest ih =>
    intro hne
    rcases col with _ | ⟨f, os⟩
    · exact absurd rfl (hne [] (List.mem_cons_self [] rest))
    · by_cases hall : os.all (· == f) = true
      · constructor
        · intro h0; simp [scanCols, hall] at h0
        · intro hforall
          exact absurd (allEq_of_all f os hall)
            (hforall (f :: os) (List.mem_cons_self _ _))
      · have hf : os.all (· == f) = false := Bool.not_eq_true _ ▸ hall
        have h1 : scanCols ((f :: os) :: rest) = scanCols rest := by
          simp [scanCols, hf]
        rw [h1, ih (fun c hc => hne c (List.mem_cons_of_mem _ hc))]
        constructor
        · intro hrest col' hc
          rcases List.mem_cons.mp hc with hc' | hc'
          · subst hc'
            exact not_allEq_of_not_all f os hf
          · exact hrest col' hc'
        · intro hforall col' hc
          exact hforall col' (List.mem_cons_of_mem _ hc)

theorem scanCols_append_skip (A B : List (List FsPath)) :
    (∀ c ∈ A, c ≠ [] ∧ ¬ AllEq c) → scanCols (A ++ B) = scanCols B := by
  induction A with
  | nil => intro _; rfl
  | cons c A' ih =>
    intro h
    obtain ⟨hne, hnAE⟩ := h c (List.mem_cons_self c A')
    rcases c with _ | ⟨f, os⟩
    · exact absurd rfl hne
    · have hf : os.all (· == f) = false := by
        rcases Bool.eq_false_or_eq_true (os.all (· == f)) with h0 | h0
        · exact absurd (allEq_of_all f os h0) hnAE
        · exact h0
      have h1 : scanCols ((f :: os) :: (A' ++ B)) = scanCols (A' ++ B) := by
        simp [scanCols, hf]
      rw [List.cons_append, h1]
      exact ih (fun c hc => h c (List.mem_cons_of_mem _ hc))

theorem scan_rev_range_some (m : Nat) (f : Nat → List FsPath) (p : FsPath) :
    scanCols (((List.range m).map f).reverse) = some p →
      ∃ i, i < m ∧ AllEq (f i) ∧ p ∈ f i ∧
        ∀ j, i < j → j < m → f j ≠ [] ∧ ¬ AllEq (f j) := by
  induction m with
  | zero => intro h; simp [scanCols] at h
  | succ k ih =>
    intro h
    rw [List.range_succ, List.map_append, List.reverse_append] at h
    simp only [List.map_cons, List.map_nil, List.reverse_cons, List.reverse_nil,
      List.nil_append, List.singleton_append] at h
    rcases hfk : f k with _ | ⟨g, hs⟩
    · rw [hfk] at h
      simp [scanCols] at h
    · rw [hfk] at h
      by_cases hall : hs.all (· == g) = true
      · have hp : p = g := by
          simp [scanCols, hall] at h
          exact h.symm
        refine ⟨k, Nat.lt_succ_self k, hfk ▸ allEq_of_all g hs hall, ?_, ?_⟩
        · rw [hfk, hp]
          exact List.mem_cons_self g hs
        · intro j hkj hjk1
          omega
      · have hf : hs.all (· == g) = false := Bool.not_eq_true _ ▸ hall
        have heq : scanCols (((List.range k).map f).reverse) = some p := by
          simpa [scanCols, hf] using h
        obtain ⟨i, hik, hAE, hmem, hrest⟩ := ih heq
        refine ⟨i, Nat.lt_succ_of_lt hik, hAE, hmem, ?_⟩
        intro j hij hjk1
        rcases Nat.lt_or_ge j k with hjk | hjk
        · exact hrest j hij hjk
        · have hjeq : j = k := by omega
          subst hjeq
          exact ⟨hfk ▸ List.cons_ne_nil g hs,
            hfk ▸ not_allEq_of_not_all g hs hf⟩

theorem allEq_column_iff (chains : List (List FsPath)) (hne : chains ≠ [])
    (i : Nat) :
    AllEq (chains.map fun c => c.getD i default) ↔ sharedAt chains i := by
  constructor
  · intro hAE
    rcases chains with _ | ⟨c0, t⟩
    · exact absurd rfl hne
    · refine ⟨c0.getD i default, ?_⟩
      intro c hc
      exact hAE _ (List.mem_map_of_mem _ hc) _
        (List.mem_map_of_mem _ (List.mem_cons_self c0 t))
  · rintro ⟨q, hq⟩ x hx y hy
    obtain ⟨c, hc, rfl⟩ := List.mem_map.mp hx
    obtain ⟨c', hc', rfl⟩ := List.mem_map.mp hy
    rw [hq c hc, hq c' hc']

/-! ### Outcome characterizations of the resolver -/

theorem gcr_error_iff (isDir : FsPath → Bool) (paths : List FsPath) :
    (∃ e, get_common_root isDir paths = .error e) ↔
      scanCols ((zipAll (paths.map (get_path_ancestry isDir))).reverse) = none := by
  unfold get_common_root
  cases h : scanCols ((zipAll (paths.map (get_path_ancestry isDir))).reverse) with
  | some q => simp
  | none => simp

theorem gcr_ok_iff (isDir : FsPath → Bool) (paths : List FsPath) (q : FsPath) :
    get_common_root isDir paths = .ok q ↔
      scanCols ((zipAll (paths.map (get_path_ancestry isDir))).reverse) = some q := by
  unfold get_common_root
  cases h : scanCols ((zipAll (paths.map (get_path_ancestry isDir))).reverse) with
  | some p => simp
  | none => simp

/-! ### The resolver on a single path -/

theorem range_map_getD (c : List FsPath) :
    (List.range c.length).map (fun i => c.getD i default) = c := by
  apply List.ext_getElem (by simp)
  intro i h1 h2
  rw [List.getElem_map, List.getElem_range, List.getD_eq_getElem c default h2]

theorem scanCols_singletons (l : List FsPath) :
    scanCols (l.map fun x => [x]) = l.head? := by
  cases l with
  | nil => rfl
  | cons x t => rfl

theorem gcr_singleton (fs : FsPath → Bool) (P : FsPath) :
    get_common_root fs [P] =
      match (get_path_ancestry fs P).getLast? with
      | some q => .ok q
      | none => .error "Paths have no common parent Git root" := by
  unfold get_common_root
  have hz : zipAll [get_path_ancestry fs P] =
      ((List.range (get_path_ancestry fs P).length).map
        (fun i => (get_path_ancestry fs P).getD i default)).map (fun x => [x]) := by
    unfold zipAll minLen
    rw [List.map_map]
    rfl
  rw [List.map_singleton, hz, range_map_getD, ← List.map_reverse,
    scanCols_singletons, List.head?_reverse]

theorem gcr_singleton_dir (fs : FsPath → Bool) (P : FsPath) (h : fs P = true) :
    get_common_root fs [P] = .ok P := by
  rw [gcr_singleton]
  unfold get_path_ancestry
  rw [h, if_pos rfl, List.getLast?_concat]

theorem reverseParents_getLast (P : FsPath) (hseg : P.segments ≠ []) :
    (reverseParents P).getLast? = some (FsPath.parent P) := by
  have hn : 0 < P.segments.length := List.length_pos.mpr hseg
  rw [List.getLast?_eq_getElem?, reverseParents_length]
  unfold reverseParents
  rw [List.getElem?_eq_getElem (by simp; omega)]
  simp [FsPath.parent, List.dropLast_eq_take]

theorem gcr_singleton_file (fs : FsPath → Bool) (P : FsPath) (h : fs P = false)
    (hseg : P.segments ≠ []) :
    get_common_root fs [P] = .ok (FsPath.parent P) := by
  rw [gcr_singleton]
  unfold get_path_ancestry
  rw [h]
  simp only [Bool.false_eq_true, if_false]
  rw [reverseParents_getLast P hseg]

/-- C3: on a filesystem whose root is a directory, `get_common_root` applied
to the one-element collection `[P]` returns `P` itself if `P` is a
directory, and the parent of `P` otherwise; and two identical file-path
inputs `/a/b/c` yield the parent `/a/b`, since a file is never a candidate
common root. -/
theorem c3_singleton_and_identical_files (fs : FsPath → Bool) (P : FsPath)
    (hroot : fs ⟨P.anchor, []⟩ = true) :
    (fs P = true → get_common_root fs [P] = .ok P) ∧
    (fs P = false → get_common_root fs [P] = .ok (FsPath.parent P)) ∧
    get_common_root shallowFs
        [⟨"/", ["a", "b", "c"]⟩, ⟨"/", ["a", "b", "c"]⟩] =
      .ok ⟨"/", ["a", "b"]⟩ := by
  refine ⟨fun h => gcr_singleton_dir fs P h, fun h => ?_, by rfl⟩
  have hseg : P.segments ≠ [] := by
    intro h0
    have hP : P = ⟨P.anchor, []⟩ := by cases P; simp_all
    rw [hP, hroot] at h
    cases h
  exact gcr_singleton_file fs P h hseg

/-- Witness for C3 at a concrete input: on `shallowFs` the singleton of the
directory `/a` resolves to `/a` itself. -/
theorem c3_singleton_witness :
    get_common_root shallowFs [⟨"/", ["a"]⟩] = .ok ⟨"/", ["a"]⟩ :=
  (c3_singleton_and_identical_files shallowFs ⟨"/", ["a"]⟩ rfl).1 rfl

/-- C6 counterexample: on the filesystem where only `/` exists,
`get_common_root` on the single (non-existent) path `/a/b` succeeds with
result `/a`, but re-applied to `[/a]` it returns `/` instead of `/a`: the
result of a successful call need not be a fixed point. -/
theorem c6_counterexample :
    get_common_root rootOnlyFs [⟨"/", ["a", "b"]⟩] = .ok ⟨"/", ["a"]⟩ ∧
    get_common_root rootOnlyFs [⟨"/", ["a"]⟩] = .ok ⟨"/", []⟩ ∧
    (⟨"/", []⟩ : FsPath) ≠ ⟨"/", ["a"]⟩ := by
  refine ⟨rfl, rfl, ?_⟩
  intro h
  cases h

/-- C6 (amended): `get_common_root` is idempotent on results that are
directories: if it succeeds with result `R` and `R` is a directory on the
filesystem, then applying it to the singleton collection `[R]` returns `R`
unchanged.  (Without the directory condition idempotence fails: when the
inputs do not exist on the filesystem, the result itself fails the
`is_dir` test and the second call climbs to an ancestor instead.) -/
theorem c6_idempotent_on_dirs (fs : FsPath → Bool) (paths : List FsPath)
    (R : FsPath) (_hok : get_common_root fs paths = .ok R)
    (hdir : fs R = true) : get_common_root fs [R] = .ok R :=
  gcr_singleton_dir fs R hdir

/-- Witness for C6 (amended): on the demo filesystem, the common root of the
two files under `/a/b` is `/a/b`, a directory, and the resolver is a
fixed point there. -/
theorem c6_idempotent_witness :
    get_common_root demoFs [⟨"/", ["a", "b"]⟩] = .ok ⟨"/", ["a", "b"]⟩ :=
  c6_idempotent_on_dirs demoFs
    [⟨"/", ["a", "b", "c", "file.txt"]⟩, ⟨"/", ["a", "b", "d", "file2.txt"]⟩]
    ⟨"/", ["a", "b"]⟩ rfl rfl

/-- C9: `get_path_ancestry` never fails: it is a total function for every
input path, existing or not.  The filesystem is consulted only to classify
the final element (two filesystems agreeing on `P` itself produce the same
chain), and a path that is not a directory on the filesystem — in
particular a missing path, which `is_dir` reports as `False` — yields the
chain of its proper ancestors, ending at its parent. -/
theorem c9_total_and_missing_path (fs fs' : FsPath → Bool) (P : FsPath) :
    (fs P = fs' P → get_path_ancestry fs P = get_path_ancestry fs' P) ∧
    (fs P = false → get_path_ancestry fs P = reverseParents P ∧
      (P.segments ≠ [] →
        (get_path_ancestry fs P).getLast? = some (FsPath.parent P))) := by
  constructor
  · intro h
    unfold get_path_ancestry
    rw [h]
  · intro h
    have h1 : get_path_ancestry fs P = reverseParents P := by
      unfold get_path_ancestry
      rw [h]
      simp
    refine ⟨h1, fun hseg => ?_⟩
    rw [h1]
    exact reverseParents_getLast P hseg

/-- Witness for C9: the two sample filesystems agree on the missing path
`/a/x`, whose chain ends at its parent `/a`. -/
theorem c9_missing_path_witness :
    get_path_ancestry demoFs ⟨"/", ["a", "x"]⟩ =
        get_path_ancestry shallowFs ⟨"/", ["a", "x"]⟩ ∧
    (get_path_ancestry demoFs ⟨"/", ["a", "x"]⟩).getLast? =
      some (FsPath.parent ⟨"/", ["a", "x"]⟩) :=
  ⟨(c9_total_and_missing_path demoFs shallowFs ⟨"/", ["a", "x"]⟩).1 rfl,
    ((c9_total_and_missing_path demoFs shallowFs ⟨"/", ["a", "x"]⟩).2 rfl).2
      (by intro h; cases h)⟩

/-- C2: for every non-empty collection of input paths, `get_common_root`
fails (with the no-common-root `ValueError`) exactly when, after full
alignment, no lockstep directory position is shared by all input chains;
and on a single-root filesystem — all inputs under one anchor whose root is
a directory — position 0 is always shared, so the call never fails. -/
theorem c2_error_iff_no_shared_position (isDir : FsPath → Bool)
    (paths : List FsPath) (r : String) (hne : paths ≠ []) :
    ((∃ e, get_common_root isDir paths = .error e) ↔
      ¬ ∃ i, i < minLen (paths.map (get_path_ancestry isDir)) ∧
        sharedAt (paths.map (get_path_ancestry isDir)) i) ∧
    ((∀ p ∈ paths, p.anchor = r) → isDir ⟨r, []⟩ = true →
      ∃ q, get_common_root isDir paths = .ok q) := by
  have hchne : paths.map (get_path_ancestry isDir) ≠ [] := by
    simpa using hne
  have hcolne : ∀ col ∈ (zipAll (paths.map (get_path_ancestry isDir))).reverse,
      col ≠ [] := by
    intro col hcol
    rw [List.mem_reverse] at hcol
    obtain ⟨i, _, rfl⟩ := List.mem_map.mp hcol
    simpa using hchne
  have hiff : (∃ e, get_common_root isDir paths = .error e) ↔
      ¬ ∃ i, i < minLen (paths.map (get_path_ancestry isDir)) ∧
        sharedAt (paths.map (get_path_ancestry isDir)) i := by
    rw [gcr_error_iff, scanCols_none_iff _ hcolne]
    constructor
    · rintro hall ⟨i, him, hsh⟩
      refine hall ((paths.map (get_path_ancestry isDir)).map
        fun c => c.getD i default) ?_
        ((allEq_column_iff _ hchne i).mpr hsh)
      rw [List.mem_reverse]
      unfold zipAll
      exact List.mem_map_of_mem _ (List.mem_range.mpr him)
    · intro hnot col hcol hAE
      rw [List.mem_reverse] at hcol
      obtain ⟨i, hi, rfl⟩ := List.mem_map.mp hcol
      exact hnot ⟨i, List.mem_range.mp hi, (allEq_column_iff _ hchne i).mp hAE⟩
  refine ⟨hiff, fun hanchor hroot => ?_⟩
  cases hs : scanCols ((zipAll (paths.map (get_path_ancestry isDir))).reverse) with
  | some q => exact ⟨q, (gcr_ok_iff isDir paths q).mpr hs⟩
  | none =>
    exfalso
    have hrootp : ∀ p ∈ paths, isDir ⟨p.anchor, []⟩ = true := by
      intro p hp
      rw [hanchor p hp]
      exact hroot
    have hpos : 0 < minLen (paths.map (get_path_ancestry isDir)) := by
      obtain ⟨c, hc, he⟩ := minLen_attained _ hchne
      obtain ⟨p, hp, rfl⟩ := List.mem_map.mp hc
      rw [he]
      exact ancestry_length_pos isDir p (hrootp p hp)
    have hsh : sharedAt (paths.map (get_path_ancestry isDir)) 0 := by
      refine ⟨⟨r, []⟩, ?_⟩
      intro c hc
      obtain ⟨p, hp, rfl⟩ := List.mem_map.mp hc
      rw [ancestry_getD_zero isDir p (hrootp p hp), hanchor p hp]
    exact (hiff.mp ((gcr_error_iff isDir paths).mpr hs)) ⟨0, hpos, hsh⟩

/-- Witness for C2 at a concrete input: for the two demo files the call does
not fail — there is a shared position — and succeeds with some result. -/
theorem c2_witness :
    ∃ q, get_common_root demoFs
        [⟨"/", ["a", "b", "c", "file.txt"]⟩, ⟨"/", ["a", "b", "d", "file2.txt"]⟩] =
      .ok q :=
  (c2_error_iff_no_shared_position demoFs
      [⟨"/", ["a", "b", "c", "file.txt"]⟩, ⟨"/", ["a", "b", "d", "file2.txt"]⟩]
      "/" (by intro h; cases h)).2
    (by
      intro p hp
      rcases List.mem_cons.mp hp with h | h
      · rw [h]
      · rcases List.mem_cons.mp h with h' | h'
        · rw [h']
        · cases h')
    rfl

/-- C7: when the ancestor chains have different lengths, `get_common_root`
compares elements only at positions where every chain still has an element
in the root-aligned view — positions below the minimum chain length — and a
successful result sits at the last such root-aligned position at which all
chains agree. -/
theorem c7_last_shared_position_below_min (isDir : FsPath → Bool)
    (paths : List FsPath) (R : FsPath)
    (h : get_common_root isDir paths = .ok R) :
    ∃ i, i < minLen (paths.map (get_path_ancestry isDir)) ∧
      (∀ c ∈ paths.map (get_path_ancestry isDir), c.getD i default = R) ∧
      ∀ j, j < minLen (paths.map (get_path_ancestry isDir)) →
        sharedAt (paths.map (get_path_ancestry isDir)) j → j ≤ i := by
  have hpne : paths ≠ [] := by
    rintro rfl
    exact Except.noConfusion
      (show (Except.error "Paths have no common parent Git root" :
        Except String FsPath) = Except.ok R from h)
  have hchne : paths.map (get_path_ancestry isDir) ≠ [] := by
    simpa using hpne
  have hscan : scanCols
      ((zipAll (paths.map (get_path_ancestry isDir))).reverse) = some R :=
    (gcr_ok_iff isDir paths R).mp h
  have hscan' : scanCols
      (((List.range (minLen (paths.map (get_path_ancestry isDir)))).map
        fun i => (paths.map (get_path_ancestry isDir)).map
          fun c => c.getD i default).reverse) = some R := hscan
  obtain ⟨i, him, hAE, hmem, hrest⟩ :=
    scan_rev_range_some (minLen (paths.map (get_path_ancestry isDir)))
      (fun i => (paths.map (get_path_ancestry isDir)).map
        fun c => c.getD i default) R hscan'
  refine ⟨i, him, ?_, ?_⟩
  · intro c hc
    exact hAE _ (List.mem_map_of_mem _ hc) _ hmem
  · intro j hjm hsh
    by_contra hji
    obtain ⟨_, hnAE⟩ := hrest j (by omega) hjm
    exact hnAE ((allEq_column_iff _ hchne j).mpr hsh)

/-- Witness for C7 at the two demo files: their common root `/a/b` is at
the last shared root-aligned position below the minimum chain length. -/
theorem c7_witness :
    ∃ i, i < minLen
        ([⟨"/", ["a", "b", "c", "file.txt"]⟩,
          ⟨"/", ["a", "b", "d", "file2.txt"]⟩].map (get_path_ancestry demoFs)) ∧
      (∀ c ∈ [⟨"/", ["a", "b", "c", "file.txt"]⟩,
          ⟨"/", ["a", "b", "d", "file2.txt"]⟩].map (get_path_ancestry demoFs),
        c.getD i default = ⟨"/", ["a", "b"]⟩) ∧
      ∀ j, j < minLen
          ([⟨"/", ["a", "b", "c", "file.txt"]⟩,
            ⟨"/", ["a", "b", "d", "file2.txt"]⟩].map (get_path_ancestry demoFs)) →
        sharedAt ([⟨"/", ["a", "b", "c", "file.txt"]⟩,
            ⟨"/", ["a", "b", "d", "file2.txt"]⟩].map (get_path_ancestry demoFs))
          j → j ≤ i :=
  c7_last_shared_position_below_min demoFs
    [⟨"/", ["a", "b", "c", "file.txt"]⟩, ⟨"/", ["a", "b", "d", "file2.txt"]⟩]
    ⟨"/", ["a", "b"]⟩ rfl

/-! ### Permutation invariance of the column scan -/

theorem scanCols_perm_cons (col col' : List FsPath) (A B : List (List FsPath))
    (h : col.Perm col') (hAB : scanCols A = scanCols B) :
    scanCols (col :: A) = scanCols (col' :: B) := by
  rcases col with _ | ⟨f, os⟩
  · have h0 : col' = [] := h.nil_eq.symm
    subst h0
    rfl
  · rcases col' with _ | ⟨g, hs⟩
    · cases h.eq_nil
    · by_cases hall : os.all (· == f) = true
      · have hAE : AllEq (f :: os) := allEq_of_all f os hall
        have hAE' : AllEq (g :: hs) := fun x hx y hy =>
          hAE x (h.mem_iff.mpr hx) y (h.mem_iff.mpr hy)
        have hg : g = f :=
          hAE g (h.mem_iff.mpr (List.mem_cons_self g hs)) f
            (List.mem_cons_self f os)
        have hall' : hs.all (· == g) = true :=
          List.all_eq_true.mpr fun x hx =>
            beq_iff_eq.mpr (hAE' x (List.mem_cons_of_mem g hx) g
              (List.mem_cons_self g hs))
        subst hg
        simp [scanCols, hall, hall']
      · have hf : os.all (· == f) = false := Bool.not_eq_true _ ▸ hall
        have hnAE : ¬ AllEq (f :: os) := not_allEq_of_not_all f os hf
        have hnAE' : ¬ AllEq (g :: hs) := fun hAE' =>
          hnAE fun x hx y hy => hAE' x (h.mem_iff.mp hx) y (h.mem_iff.mp hy)
        have hall' : hs.all (· == g) = false := by
          rcases Bool.eq_false_or_eq_true (hs.all (· == g)) with h0 | h0
          · exact absurd (allEq_of_all g hs h0) hnAE'
          · exact h0
        simpa [scanCols, hf, hall'] using hAB

theorem scan_rev_range_perm (m : Nat) (f g : Nat → List FsPath)
    (h : ∀ i, i < m → (f i).Perm (g i)) :
    scanCols (((List.range m).map f).reverse) =
      scanCols (((List.range m).map g).reverse) := by
  induction m with
  | zero => rfl
  | succ k ih =>
    simp only [List.range_succ, List.map_append, List.map_cons, List.map_nil,
      List.reverse_append, List.reverse_cons, List.reverse_nil,
      List.nil_append, List.singleton_append]
    exact scanCols_perm_cons (f k) (g k) _ _ (h k (Nat.lt_succ_self k))
      (ih fun i hi => h i (Nat.lt_succ_of_lt hi))

/-- C5: `get_common_root` is order-independent: a permutation of the input
collection yields the same outcome — the same returned path, and failure
exactly when the original fails. -/
theorem c5_order_independent (isDir : FsPath → Bool)
    (paths paths' : List FsPath) (h : paths.Perm paths') :
    get_common_root isDir paths = get_common_root isDir paths' := by
  have hch : (paths.map (get_path_ancestry isDir)).Perm
      (paths'.map (get_path_ancestry isDir)) := h.map _
  have hm : minLen (paths.map (get_path_ancestry isDir)) =
      minLen (paths'.map (get_path_ancestry isDir)) := minLen_perm _ _ hch
  have hscan : scanCols ((zipAll (paths.map (get_path_ancestry isDir))).reverse) =
      scanCols ((zipAll (paths'.map (get_path_ancestry isDir))).reverse) := by
    show scanCols
        (((List.range (minLen (paths.map (get_path_ancestry isDir)))).map
          fun i => (paths.map (get_path_ancestry isDir)).map
            fun c => c.getD i default).reverse) =
      scanCols
        (((List.range (minLen (paths'.map (get_path_ancestry isDir)))).map
          fun i => (paths'.map (get_path_ancestry isDir)).map
            fun c => c.getD i default).reverse)
    rw [← hm]
    exact scan_rev_range_perm _ _ _ fun i _ => hch.map _
  unfold get_common_root
  rw [hscan]

/-- Witness for C5: swapping the two demo files does not change the
result. -/
theorem c5_witness :
    get_common_root demoFs
        [⟨"/", ["a", "b", "c", "file.txt"]⟩, ⟨"/", ["a", "b", "d", "file2.txt"]⟩] =
      get_common_root demoFs
        [⟨"/", ["a", "b", "d", "file2.txt"]⟩, ⟨"/", ["a", "b", "c", "file.txt"]⟩] :=
  c5_order_independent demoFs _ _
    (List.Perm.swap (⟨"/", ["a", "b", "d", "file2.txt"]⟩ : FsPath)
      (⟨"/", ["a", "b", "c", "file.txt"]⟩ : FsPath) [])

/-! ### Scan when every column deeper than the root disagrees -/

theorem scan_rev_range_head (m : Nat) (f : Nat → List FsPath) (hm : 0 < m)
    (hdis : ∀ j, 1 ≤ j → j < m → f j ≠ [] ∧ ¬ AllEq (f j)) :
    scanCols (((List.range m).map f).reverse) = scanCols [f 0] := by
  induction m with
  | zero => omega
  | succ k ih =>
    rcases Nat.eq_zero_or_pos k with hk | hk
    · subst hk
      rfl
    · simp only [List.range_succ, List.map_append, List.map_cons, List.map_nil,
        List.reverse_append, List.reverse_cons, List.reverse_nil,
        List.nil_append, List.singleton_append]
      obtain ⟨hne, hnAE⟩ := hdis k (by omega) (Nat.lt_succ_self k)
      rcases hfk : f k with _ | ⟨x, xs⟩
      · exact absurd hfk hne
      · have hall : xs.all (· == x) = false := by
          rcases Bool.eq_false_or_eq_true (xs.all (· == x)) with h0 | h0
          · exact absurd (hfk ▸ allEq_of_all x xs h0) hnAE
          · exact h0
        have hstep : scanCols ((x :: xs) :: ((List.range k).map f).reverse) =
            scanCols (((List.range k).map f).reverse) := by
          simp [scanCols, hall]
        rw [hstep]
        exact ih hk fun j h1 hj => hdis j h1 (Nat.lt_succ_of_lt hj)

/-- C4: two input paths under the same filesystem root that share no
ancestor directory below the root resolve to exactly the root. -/
theorem c4_no_shared_ancestor_gives_root (isDir : FsPath → Bool)
    (P1 P2 : FsPath) (hanch : P1.anchor = P2.anchor)
    (hroot : isDir ⟨P1.anchor, []⟩ = true)
    (hshare : ∀ q, ancestorOf q P1 → ancestorOf q P2 → q.segments = []) :
    get_common_root isDir [P1, P2] = .ok ⟨P1.anchor, []⟩ := by
  have hroot2 : isDir ⟨P2.anchor, []⟩ = true := by
    rw [← hanch]
    exact hroot
  have hlen1 : 0 < (get_path_ancestry isDir P1).length :=
    ancestry_length_pos isDir P1 hroot
  have hlen2 : 0 < (get_path_ancestry isDir P2).length :=
    ancestry_length_pos isDir P2 hroot2
  have hmpos : 0 < minLen ([P1, P2].map (get_path_ancestry isDir)) := by
    show 0 < min (get_path_ancestry isDir P1).length
      (get_path_ancestry isDir P2).length
    exact Nat.lt_min.mpr ⟨hlen1, hlen2⟩
  have hdis : ∀ j, 1 ≤ j → j < minLen ([P1, P2].map (get_path_ancestry isDir)) →
      (([P1, P2].map (get_path_ancestry isDir)).map fun c => c.getD j default) ≠
        [] ∧
      ¬ AllEq (([P1, P2].map (get_path_ancestry isDir)).map
        fun c => c.getD j default) := by
    intro j h1 hj
    have hj1 : j < (get_path_ancestry isDir P1).length :=
      lt_of_lt_of_le hj (minLen_le_of_mem _ _ (by simp))
    have hj2 : j < (get_path_ancestry isDir P2).length :=
      lt_of_lt_of_le hj (minLen_le_of_mem _ _ (by simp))
    have hx1 : (get_path_ancestry isDir P1).getD j default =
        ⟨P1.anchor, P1.segments.take j⟩ := ancestry_getD _ _ _ hj1
    have hx2 : (get_path_ancestry isDir P2).getD j default =
        ⟨P2.anchor, P2.segments.take j⟩ := ancestry_getD _ _ _ hj2
    have hs1 : P1.segments ≠ [] := by
      intro h0
      have hle : (get_path_ancestry isDir P1).length ≤ 1 := by
        rw [ancestry_length, h0]
        split <;> simp
      omega
    have hs2 : P2.segments ≠ [] := by
      intro h0
      have hle : (get_path_ancestry isDir P2).length ≤ 1 := by
        rw [ancestry_length, h0]
        split <;> simp
      omega
    rcases hP1 : P1.segments with _ | ⟨a1, t1⟩
    · exact absurd hP1 hs1
    rcases hP2 : P2.segments with _ | ⟨a2, t2⟩
    · exact absurd hP2 hs2
    have hne12 : a1 ≠ a2 := by
      intro heq
      have h1a : ancestorOf ⟨P1.anchor, [a1]⟩ P1 := by
        refine ⟨rfl, t1, ?_⟩
        rw [hP1]
        rfl
      have h2a : ancestorOf ⟨P1.anchor, [a1]⟩ P2 := by
        refine ⟨hanch, t2, ?_⟩
        rw [hP2, heq]
        rfl
      have h0 := hshare _ h1a h2a
      simp at h0
    refine ⟨by simp, ?_⟩
    intro hAE
    have heq12 := hAE ((get_path_ancestry isDir P1).getD j default) (by simp)
      ((get_path_ancestry isDir P2).getD j default) (by simp)
    rw [hx1, hx2] at heq12
    have hseg : P1.segments.take j = P2.segments.take j :=
      congrArg FsPath.segments heq12
    rw [hP1, hP2] at hseg
    rcases j with _ | jj
    · omega
    · rw [List.take_succ_cons, List.take_succ_cons] at hseg
      injection hseg with hh _
      exact hne12 hh
  have hscan : scanCols
      ((zipAll ([P1, P2].map (get_path_ancestry isDir))).reverse) =
      some ⟨P1.anchor, []⟩ := by
    have hform : scanCols
        ((zipAll ([P1, P2].map (get_path_ancestry isDir))).reverse) =
        scanCols [([P1, P2].map (get_path_ancestry isDir)).map
          fun c => c.getD 0 default] := by
      show scanCols
          (((List.range (minLen ([P1, P2].map (get_path_ancestry isDir)))).map
            fun i => ([P1, P2].map (get_path_ancestry isDir)).map
              fun c => c.getD i default).reverse) = _
      exact scan_rev_range_head _ _ hmpos hdis
    rw [hform]
    show scanCols [[(get_path_ancestry isDir P1).getD 0 default,
      (get_path_ancestry isDir P2).getD 0 default]] = _
    rw [ancestry_getD_zero isDir P1 hroot, ancestry_getD_zero isDir P2 hroot2,
      ← hanch]
    simp [scanCols]
  exact (gcr_ok_iff isDir [P1, P2] _).mpr hscan

/-- Witness for C4: the files `/x/u` and `/y/v` share no ancestor below `/`
on the demo filesystem, and their common root is exactly `/`. -/
theorem c4_witness :
    get_common_root demoFs [⟨"/", ["x", "u"]⟩, ⟨"/", ["y", "v"]⟩] =
      .ok ⟨"/", []⟩ :=
  c4_no_shared_ancestor_gives_root demoFs ⟨"/", ["x", "u"]⟩ ⟨"/", ["y", "v"]⟩
    rfl rfl
    (by
      rintro ⟨qa, qs⟩ ⟨h1a, t1, h1s⟩ ⟨h2a, t2, h2s⟩
      rcases qs with _ | ⟨s, ss⟩
      · rfl
      · exfalso
        simp only [List.cons_append] at h1s h2s
        injection h1s with hx _
        injection h2s with hy _
        rw [hx] at hy
        exact absurd hy (by decide))

/-! ### Chain shape invariants -/

theorem ancestry_map_seglen (fs : FsPath → Bool) (p : FsPath) :
    (get_path_ancestry fs p).map (fun q => q.segments.length) =
      List.range (get_path_ancestry fs p).length := by
  apply List.ext_getElem (by simp)
  intro i h1 h2
  rw [List.getElem_map, List.getElem_range]
  have hn : i < (get_path_ancestry fs p).length := by simpa using h1
  have hgd := ancestry_getD fs p i hn
  rw [List.getD_eq_getElem _ _ hn] at hgd
  have hin : i ≤ p.segments.length := by
    rw [ancestry_length] at hn
    by_cases hd : fs p
    · rw [if_pos hd] at hn
      omega
    · rw [if_neg hd] at hn
      omega
  rw [hgd]
  simp [List.length_take]
  omega

/-- C8: for every path `P` on a filesystem whose root is a directory, the
chain produced by `get_path_ancestry` starts at the filesystem root, each
element is the direct parent of the next (one more trailing segment, same
anchor) with no gaps and no repeated elements, and if `P` is the root
itself the chain is exactly the one-element sequence containing the
root. -/
theorem c8_chain_structure (fs : FsPath → Bool) (P : FsPath)
    (hroot : fs ⟨P.anchor, []⟩ = true) :
    (get_path_ancestry fs P).head? = some ⟨P.anchor, []⟩ ∧
    (∀ i, i + 1 < (get_path_ancestry fs P).length →
      ∃ s, (get_path_ancestry fs P).getD (i + 1) default =
        ⟨((get_path_ancestry fs P).getD i default).anchor,
          ((get_path_ancestry fs P).getD i default).segments ++ [s]⟩) ∧
    (get_path_ancestry fs P).Nodup ∧
    (P.segments = [] → get_path_ancestry fs P = [P]) := by
  refine ⟨?_, ?_, ?_, ?_⟩
  · have hpos := ancestry_length_pos fs P hroot
    have h0 := ancestry_getD_zero fs P hroot
    rcases hl : get_path_ancestry fs P with _ | ⟨x, t⟩
    · rw [hl] at hpos
      simp at hpos
    · rw [hl] at h0
      simp only [List.getD_cons_zero] at h0
      simp only [List.head?_cons, h0]
  · intro i hi
    have hii : i < (get_path_ancestry fs P).length := by omega
    have hseg : i < P.segments.length := by
      have h := hi
      rw [ancestry_length] at h
      by_cases hd : fs P
      · rw [if_pos hd] at h
        omega
      · rw [if_neg hd] at h
        omega
    refine ⟨P.segments.getD i "", ?_⟩
    rw [ancestry_getD fs P i hii, ancestry_getD fs P (i + 1) hi]
    have ht : P.segments.take (i + 1) =
        P.segments.take i ++ [P.segments.getD i ""] := by
      rw [List.take_succ]
      congr 1
      rw [List.getElem?_eq_getElem hseg, List.getD_eq_getElem _ _ hseg]
      rfl
    show (⟨P.anchor, P.segments.take (i + 1)⟩ : FsPath) =
      ⟨P.anchor, P.segments.take i ++ [P.segments.getD i ""]⟩
    rw [ht]
  · have hml := ancestry_map_seglen fs P
    exact List.Nodup.of_map _ (hml ▸ List.nodup_range _)
  · intro h0
    have hP : P = ⟨P.anchor, []⟩ := by
      cases P
      simp_all
    have hfsP : fs P = true := by
      rw [hP]
      exact hroot
    simp [get_path_ancestry, hfsP, reverseParents, h0]

/-- Witness for C8 at the root path `/` of the demo filesystem: the chain
starts (and ends) at the root, has no repeats, and is exactly `[/]`. -/
theorem c8_witness :
    (get_path_ancestry demoFs ⟨"/", []⟩).head? = some ⟨"/", []⟩ ∧
    (get_path_ancestry demoFs ⟨"/", []⟩).Nodup ∧
    get_path_ancestry demoFs ⟨"/", []⟩ = [⟨"/", []⟩] :=
  ⟨(c8_chain_structure demoFs ⟨"/", []⟩ rfl).1,
    (c8_chain_structure demoFs ⟨"/", []⟩ rfl).2.2.1,
    (c8_chain_structure demoFs ⟨"/", []⟩ rfl).2.2.2 rfl⟩
